import Mathlib

set_option maxHeartbeats 1000000

namespace CdpSdk

/-! ## JSON model for the build script (src/rust/build.rs)

`serde_json::Value` is modelled as a mutual inductive: objects are
association lists in insertion order (serde_json maps have unique keys, so
rewriting every entry whose key is `"enum"` coincides with rewriting the
single entry `get_mut("enum")` returns). -/

mutual
inductive Json where
  | null : Json
  | bool (b : Bool) : Json
  | num (n : Int) : Json
  | str (s : String) : Json
  | arr (xs : JsonList) : Json
  | obj (m : JsonEntries) : Json

inductive JsonList where
  | nil : JsonList
  | cons (x : Json) (xs : JsonList) : JsonList

inductive JsonEntries where
  | nil : JsonEntries
  | cons (k : String) (v : Json) (rest : JsonEntries) : JsonEntries
end

/-- The per-string rewrite of build.rs `fix_enum_values` (the inner `match
s.as_str()`): comparison-operator strings become identifier names. -/
def fixStr (s : String) : String :=
  if s = ">" then "GreaterThan"
  else if s = ">=" then "GreaterThanOrEqual"
  else if s = "<" then "LessThan"
  else if s = "<=" then "LessThanOrEqual"
  else if s = "==" then "Equal"
  else s

/-! `fix_enum_values` from build.rs. The Rust function, on an object, first
rewrites the string items of the array stored under key `"enum"` (if that
value is an array), then recurses into every value of the object; on an
array it recurses into every item; other values are untouched. The two
phases are fused here per entry: for an entry keyed `"enum"` whose value is
an array, each string item receives `fixStr` (recursing into a string is a
no-op) and each non-string item is recursed into; every other entry value
is simply recursed into. This is the same function, restructured so the
recursion is structural. -/
mutual
def fixJson : Json → Json
  | .null => .null
  | .bool b => .bool b
  | .num n => .num n
  | .str s => .str s
  | .arr xs => .arr (fixList xs)
  | .obj m => .obj (fixEntries m)

def fixList : JsonList → JsonList
  | .nil => .nil
  | .cons x xs => .cons (fixJson x) (fixList xs)

def fixEntries : JsonEntries → JsonEntries
  | .nil => .nil
  | .cons k v rest =>
      .cons k (if k = "enum" then fixEnumVal v else fixJson v) (fixEntries rest)

def fixEnumVal : Json → Json
  | .null => .null
  | .bool b => .bool b
  | .num n => .num n
  | .str s => .str s
  | .arr xs => .arr (fixEnumList xs)
  | .obj m => .obj (fixEntries m)

def fixEnumList : JsonList → JsonList
  | .nil => .nil
  | .cons x xs => .cons (fixEnumItem x) (fixEnumList xs)

def fixEnumItem : Json → Json
  | .null => .null
  | .bool b => .bool b
  | .num n => .num n
  | .str s => .str (fixStr s)
  | .arr xs => .arr (fixList xs)
  | .obj m => .obj (fixEntries m)
end

/-! Shape of a JSON value: object keys are kept, string leaves are blanked —
two values share a shape exactly when they differ at most in string leaf
contents. -/
mutual
def jshape : Json → Json
  | .null => .null
  | .bool b => .bool b
  | .num n => .num n
  | .str _ => .str ""
  | .arr xs => .arr (jshapeList xs)
  | .obj m => .obj (jshapeEntries m)

def jshapeList : JsonList → JsonList
  | .nil => .nil
  | .cons x xs => .cons (jshape x) (jshapeList xs)

def jshapeEntries : JsonEntries → JsonEntries
  | .nil => .nil
  | .cons k v rest => .cons k (jshape v) (jshapeEntries rest)
end

/-- True exactly on array values. -/
def isArr : Json → Bool
  | .arr _ => true
  | _ => false

/-! `noEnum` is true when the value nowhere contains an object entry with
key `"enum"` whose value is an array (the only situation build.rs
rewrites). -/
mutual
def noEnum : Json → Bool
  | .null => true
  | .bool _ => true
  | .num _ => true
  | .str _ => true
  | .arr xs => noEnumList xs
  | .obj m => noEnumEntries m

def noEnumList : JsonList → Bool
  | .nil => true
  | .cons x xs => noEnum x && noEnumList xs

def noEnumEntries : JsonEntries → Bool
  | .nil => true
  | .cons k v rest =>
      (decide (k ≠ "enum") || !(isArr v)) && noEnum v && noEnumEntries rest
end

theorem fixStr_idem (s : String) : fixStr (fixStr s) = fixStr s := by
  by_cases h1 : s = ">"
  · subst h1; decide
  by_cases h2 : s = ">="
  · subst h2; decide
  by_cases h3 : s = "<"
  · subst h3; decide
  by_cases h4 : s = "<="
  · subst h4; decide
  by_cases h5 : s = "=="
  · subst h5; decide
  simp [fixStr, h1, h2, h3, h4, h5]

theorem fixEnumVal_of_not_arr (v : Json) (h : isArr v = false) :
    fixEnumVal v = fixJson v := by
  cases v <;> simp_all [isArr, fixEnumVal, fixJson]

mutual
theorem fixJson_fixJson : (v : Json) → fixJson (fixJson v) = fixJson v
  | .null => rfl
  | .bool _ => rfl
  | .num _ => rfl
  | .str _ => rfl
  | .arr xs => by simp only [fixJson, fixList_fixList xs]
  | .obj m => by simp only [fixJson, fixEntries_fixEntries m]

theorem fixList_fixList : (xs : JsonList) → fixList (fixList xs) = fixList xs
  | .nil => rfl
  | .cons x xs => by simp only [fixList, fixJson_fixJson x, fixList_fixList xs]

theorem fixEntries_fixEntries : (m : JsonEntries) → fixEntries (fixEntries m) = fixEntries m
  | .nil => rfl
  | .cons k v rest => by
      by_cases h : k = "enum" <;>
        simp only [fixEntries, h, if_true, if_false, ite_true, ite_false,
          fixEnumVal_fixEnumVal v, fixJson_fixJson v, fixEntries_fixEntries rest]

theorem fixEnumVal_fixEnumVal : (v : Json) → fixEnumVal (fixEnumVal v) = fixEnumVal v
  | .null => rfl
  | .bool _ => rfl
  | .num _ => rfl
  | .str _ => rfl
  | .arr xs => by simp only [fixEnumVal, fixEnumList_fixEnumList xs]
  | .obj m => by simp only [fixEnumVal, fixEntries_fixEntries m]

theorem fixEnumList_fixEnumList : (xs : JsonList) → fixEnumList (fixEnumList xs) = fixEnumList xs
  | .nil => rfl
  | .cons x xs => by simp only [fixEnumList, fixEnumItem_fixEnumItem x, fixEnumList_fixEnumList xs]

theorem fixEnumItem_fixEnumItem : (x : Json) → fixEnumItem (fixEnumItem x) = fixEnumItem x
  | .null => rfl
  | .bool _ => rfl
  | .num _ => rfl
  | .str s => by simp only [fixEnumItem, fixStr_idem s]
  | .arr xs => by simp only [fixEnumItem, fixList_fixList xs]
  | .obj m => by simp only [fixEnumItem, fixEntries_fixEntries m]
end

mutual
theorem jshape_fixJson : (v : Json) → jshape (fixJson v) = jshape v
  | .null => rfl
  | .bool _ => rfl
  | .num _ => rfl
  | .str _ => rfl
  | .arr xs => by simp only [fixJson, jshape, jshapeList_fixList xs]
  | .obj m => by simp only [fixJson, jshape, jshapeEntries_fixEntries m]

theorem jshapeList_fixList : (xs : JsonList) → jshapeList (fixList xs) = jshapeList xs
  | .nil => rfl
  | .cons x xs => by simp only [fixList, jshapeList, jshape_fixJson x, jshapeList_fixList xs]

theorem jshapeEntries_fixEntries : (m : JsonEntries) → jshapeEntries (fixEntries m) = jshapeEntries m
  | .nil => rfl
  | .cons k v rest => by
      by_cases h : k = "enum" <;>
        simp only [fixEntries, jshapeEntries, h, ite_true, ite_false,
          jshape_fixEnumVal v, jshape_fixJson v, jshapeEntries_fixEntries rest]

theorem jshape_fixEnumVal : (v : Json) → jshape (fixEnumVal v) = jshape v
  | .null => rfl
  | .bool _ => rfl
  | .num _ => rfl
  | .str _ => rfl
  | .arr xs => by simp only [fixEnumVal, jshape, jshapeList_fixEnumList xs]
  | .obj m => by simp only [fixEnumVal, jshape, jshapeEntries_fixEntries m]

theorem jshapeList_fixEnumList : (xs : JsonList) → jshapeList (fixEnumList xs) = jshapeList xs
  | .nil => rfl
  | .cons x xs => by
      simp only [fixEnumList, jshapeList, jshape_fixEnumItem x, jshapeList_fixEnumList xs]

theorem jshape_fixEnumItem : (x : Json) → jshape (fixEnumItem x) = jshape x
  | .null => rfl
  | .bool _ => rfl
  | .num _ => rfl
  | .str s => by simp only [fixEnumItem, jshape]
  | .arr xs => by simp only [fixEnumItem, jshape, jshapeList_fixList xs]
  | .obj m => by simp only [fixEnumItem, jshape, jshapeEntries_fixEntries m]
end

mutual
theorem fixJson_of_noEnum : (v : Json) → noEnum v = true → fixJson v = v
  | .null, _ => rfl
  | .bool _, _ => rfl
  | .num _, _ => rfl
  | .str _, _ => rfl
  | .arr xs, h => by
      simp only [fixJson]
      rw [fixList_of_noEnum xs (by simpa [noEnum] using h)]
  | .obj m, h => by
      simp only [fixJson]
      rw [fixEntries_of_noEnum m (by simpa [noEnum] using h)]

theorem fixList_of_noEnum : (xs : JsonList) → noEnumList xs = true → fixList xs = xs
  | .nil, _ => rfl
  | .cons x xs, h => by
      simp only [noEnumList, Bool.and_eq_true] at h
      simp only [fixList]
      rw [fixJson_of_noEnum x h.1, fixList_of_noEnum xs h.2]

theorem fixEntries_of_noEnum : (m : JsonEntries) → noEnumEntries m = true → fixEntries m = m
  | .nil, _ => rfl
  | .cons k v rest, h => by
      simp only [noEnumEntries, Bool.and_eq_true, Bool.or_eq_true, decide_eq_true_eq,
        Bool.not_eq_true', ne_eq] at h
      simp only [fixEntries]
      rw [fixEntries_of_noEnum rest h.2]
      by_cases hk : k = "enum"
      · have harr : isArr v = false := by
          rcases h.1.1 with h1 | h1
          · exact absurd hk h1
          · exact h1
        rw [if_pos hk, fixEnumVal_of_not_arr v harr, fixJson_of_noEnum v h.1.2]
      · rw [if_neg hk, fixJson_of_noEnum v h.1.2]
end

/-- C9: the build-script transformation `fix_enum_values` is idempotent —
applying it twice equals applying it once, because its replacement strings
are never in the set it rewrites — and it preserves the structure of the
value (shape equality: only string leaf contents may change); on values
with no array stored under an `"enum"` object key it is the identity. -/
theorem fix_enum_values_spec (v : Json) :
    fixJson (fixJson v) = fixJson v ∧ jshape (fixJson v) = jshape v ∧
    (noEnum v = true → fixJson v = v) :=
  ⟨fixJson_fixJson v, jshape_fixJson v, fixJson_of_noEnum v⟩

/-- Concrete JSON value with an `"enum"` array containing an operator string. -/
def jsonEx : Json :=
  .obj (.cons "enum" (.arr (.cons (.str ">") (.cons (.str "xyz") .nil)))
    (.cons "other" (.arr (.cons (.str ">") .nil)) .nil))

/-- Concrete JSON value with no `"enum"` key anywhere. -/
def jsonExPlain : Json :=
  .obj (.cons "a" (.str ">") (.cons "b" (.arr (.cons (.str "<") .nil)) .nil))

/-- C9 witness: the theorem evaluated at concrete JSON values, the
`noEnum` hypothesis discharged by evaluation. -/
theorem fix_enum_values_spec_witness :
    fixJson (fixJson jsonEx) = fixJson jsonEx ∧ fixJson jsonExPlain = jsonExPlain :=
  ⟨(fix_enum_values_spec jsonEx).1, (fix_enum_values_spec jsonExPlain).2.2 (by decide)⟩

/-! ## Test helper `generate_random_name` (src/rust/tests/e2e.rs, lines 42-64)

The helper draws from a random number generator; it is embedded as a
function of the drawn values: the index for the first character, the raw
length draw `random_range(0..34)`, the stream of indices for the middle
characters, and the index for the last character. -/

/-- The 62-character hyphen-free alphabet `chars` of `generate_random_name`. -/
def nameChars : List Char :=
  "ABCDEFGHIJKLMNOPQRSTUVWXYZabcdefghijklmnopqrstuvwxyz0123456789".toList

/-- The 63-character alphabet `chars_with_hyphen` of `generate_random_name`. -/
def nameCharsWithHyphen : List Char :=
  "ABCDEFGHIJKLMNOPQRSTUVWXYZabcdefghijklmnopqrstuvwxyz0123456789-".toList

/-- `min_length` of `generate_random_name`. -/
def nameMinLength : Nat := 5

/-- `generate_random_name` from e2e.rs: first character from `nameChars` at
the first drawn index, middle part of `max lenDraw min_length` characters
from `nameCharsWithHyphen` at the drawn indices, last character from
`nameChars`. The `.nth(i).unwrap()` is total because every drawn index is
below the alphabet length; the default of `getD` is never used then. -/
def generateRandomName (firstIdx lenDraw : Nat) (mid : Nat → Nat) (lastIdx : Nat) : String :=
  let first := nameChars.getD firstIdx 'A'
  let middleLength := max lenDraw nameMinLength
  let middle := (List.range middleLength).map (fun j => nameCharsWithHyphen.getD (mid j) 'A')
  let last := nameChars.getD lastIdx 'A'
  String.mk (first :: (middle ++ [last]))

theorem getD_mem_of_lt {α : Type} (l : List α) (n : Nat) (d : α) (h : n < l.length) :
    l.getD n d ∈ l := by
  rw [List.getD_eq_getElem l d h]
  exact List.getElem_mem h

theorem nameChars_length : nameChars.length = 62 := by decide

theorem nameCharsWithHyphen_length : nameCharsWithHyphen.length = 63 := by decide

theorem nameChars_alphanum :
    ∀ c ∈ nameChars, c.isAlpha = true ∨ c.isDigit = true := by
  have h : nameChars.all (fun c => c.isAlpha || c.isDigit) = true := by decide
  intro c hc
  have := List.all_eq_true.mp h c hc
  simpa [Bool.or_eq_true] using this

theorem nameCharsWithHyphen_ok :
    ∀ c ∈ nameCharsWithHyphen, c.isAlpha = true ∨ c.isDigit = true ∨ c = '-' := by
  have h : nameCharsWithHyphen.all (fun c => c.isAlpha || c.isDigit || c == '-') = true := by
    decide
  intro c hc
  have := List.all_eq_true.mp h c hc
  simpa [Bool.or_eq_true, beq_iff_eq, or_assoc] using this

/-- C10: every string produced by the test helper `generate_random_name`
has length between 7 and 35, consists only of ASCII letters, digits and
hyphens, and its first and last characters come from the hyphen-free
alphabet, so a generated name never begins or ends with a hyphen. The
hypotheses are exactly the ranges of the random draws in the source:
`random_range(0..chars.len())`, `random_range(0..34)`,
`random_range(0..chars_with_hyphen.len())`. -/
theorem generate_random_name_spec (firstIdx lenDraw lastIdx : Nat) (mid : Nat → Nat)
    (hf : firstIdx < 62) (hd : lenDraw < 34) (hm : ∀ j, mid j < 63) (hl : lastIdx < 62) :
    7 ≤ (generateRandomName firstIdx lenDraw mid lastIdx).length ∧
    (generateRandomName firstIdx lenDraw mid lastIdx).length ≤ 35 ∧
    (∀ c ∈ (generateRandomName firstIdx lenDraw mid lastIdx).data,
      c.isAlpha = true ∨ c.isDigit = true ∨ c = '-') ∧
    (∀ c, (generateRandomName firstIdx lenDraw mid lastIdx).data.head? = some c →
      c.isAlpha = true ∨ c.isDigit = true) ∧
    (∀ c, (generateRandomName firstIdx lenDraw mid lastIdx).data.getLast? = some c →
      c.isAlpha = true ∨ c.isDigit = true) := by
  have hfl : nameChars.getD firstIdx 'A' ∈ nameChars :=
    getD_mem_of_lt _ _ _ (by rw [nameChars_length]; exact hf)
  have hll : nameChars.getD lastIdx 'A' ∈ nameChars :=
    getD_mem_of_lt _ _ _ (by rw [nameChars_length]; exact hl)
  have hdata : (generateRandomName firstIdx lenDraw mid lastIdx).data =
      nameChars.getD firstIdx 'A' ::
        ((List.range (max lenDraw nameMinLength)).map
            (fun j => nameCharsWithHyphen.getD (mid j) 'A') ++
          [nameChars.getD lastIdx 'A']) := rfl
  have hlen : (generateRandomName firstIdx lenDraw mid lastIdx).length =
      max lenDraw 5 + 2 := by
    show (generateRandomName firstIdx lenDraw mid lastIdx).data.length = _
    rw [hdata]
    simp [List.length_append, List.length_map, List.length_range, nameMinLength]
  have hmax1 : 5 ≤ max lenDraw 5 := le_max_right _ _
  have hmax2 : max lenDraw 5 ≤ 33 := max_le (by omega) (by omega)
  refine ⟨?_, ?_, ?_, ?_, ?_⟩
  · rw [hlen]; omega
  · rw [hlen]; omega
  · intro c hc
    rw [hdata] at hc
    rcases List.mem_cons.mp hc with rfl | hc2
    · rcases nameChars_alphanum _ hfl with h | h
      · exact Or.inl h
      · exact Or.inr (Or.inl h)
    · rcases List.mem_append.mp hc2 with hc3 | hc3
      · rcases List.mem_map.mp hc3 with ⟨j, _, rfl⟩
        exact nameCharsWithHyphen_ok _
          (getD_mem_of_lt _ _ _ (by rw [nameCharsWithHyphen_length]; exact hm j))
      · rcases List.mem_singleton.mp hc3 with rfl
        rcases nameChars_alphanum _ hll with h | h
        · exact Or.inl h
        · exact Or.inr (Or.inl h)
  · intro c hc
    rw [hdata] at hc
    simp only [List.head?_cons, Option.some.injEq] at hc
    subst hc
    exact nameChars_alphanum _ hfl
  · intro c hc
    rw [hdata, ← List.cons_append, List.getLast?_concat, Option.some.injEq] at hc
    subst hc
    exact nameChars_alphanum _ hll

/-- C10 witness: the theorem applied at concrete random draws, hypotheses
discharged by evaluation. -/
theorem generate_random_name_spec_witness :
    7 ≤ (generateRandomName 0 10 (fun _ => 62) 5).length ∧
    (generateRandomName 0 10 (fun _ => 62) 5).length ≤ 35 ∧
    (∀ c ∈ (generateRandomName 0 10 (fun _ => 62) 5).data,
      c.isAlpha = true ∨ c.isDigit = true ∨ c = '-') ∧
    (∀ c, (generateRandomName 0 10 (fun _ => 62) 5).data.head? = some c →
      c.isAlpha = true ∨ c.isDigit = true) ∧
    (∀ c, (generateRandomName 0 10 (fun _ => 62) 5).data.getLast? = some c →
      c.isAlpha = true ∨ c.isDigit = true) :=
  generate_random_name_spec 0 10 5 (fun _ => 62) (by decide) (by decide)
    (fun _ => Nat.lt_succ_self 62) (by decide)

/-! ## Authentication middleware model

The middleware itself (`cdp_sdk::auth`, declared as `pub mod auth;` in
src/rust/src/lib.rs) is not part of the source snapshot; only its callers
(tests/e2e.rs, the examples) and its error surface (src/rust/src/error.rs)
are. The definitions below are therefore modelled from the spec
(spec.md sections 2-7). Byte strings are lists of naturals below 256. -/

/-- Byte values of an ASCII string literal. -/
def strBytes (s : String) : List Nat := s.data.map Char.toNat

/-- Modelled from the spec: the fixed, unambiguous separator joining the
canonical payload fields of the wallet signature (section 4.3); the
newline byte. -/
def sepByte : Nat := 10

/-- Modelled from the spec: ASCII uppercasing of one byte (section 4.3
uppercases the HTTP method). -/
def upperByte (b : Nat) : Nat := if 97 ≤ b ∧ b ≤ 122 then b - 32 else b

/-- Uppercased method bytes. -/
def upperBytes (l : List Nat) : List Nat := l.map upperByte

/-- Lower-case hex digit byte for a value below 16. -/
def hexDigitByte (d : Nat) : Nat := if d < 10 then 48 + d else 87 + d

/-- Modelled from the spec: the content digest of the raw body bytes
(section 4.3), modelled as the injective lowercase-hex encoding of the
bytes — the spec relies on the digest being collision-free across distinct
bodies; the empty body yields the digest of the empty byte sequence, not a
sentinel. -/
def hexBytes : List Nat → List Nat
  | [] => []
  | b :: bs => hexDigitByte (b / 16) :: hexDigitByte (b % 16) :: hexBytes bs

/-- Decimal ASCII digits of a natural number, with explicit fuel so the
recursion is structural; the fuel `n + 1` always suffices. -/
def decimalDigitsGo (fuel n : Nat) : List Nat :=
  match fuel with
  | 0 => []
  | fuel' + 1 =>
      if n < 10 then [48 + n] else decimalDigitsGo fuel' (n / 10) ++ [48 + n % 10]

/-- Decimal ASCII encoding of timestamp and nonce values. -/
def decimalDigits (n : Nat) : List Nat := decimalDigitsGo (n + 1) n

/-- Modelled from the spec (section 4.3): the canonical signing payload of
the Wallet Signature Signer — uppercased method, path, body digest,
timestamp, nonce, concatenated in that order with the fixed separator. -/
def canonicalPayload (method path body : List Nat) (ts nonce : Nat) : List Nat :=
  upperBytes method ++ sepByte ::
    (path ++ sepByte ::
      (hexBytes body ++ sepByte ::
        (decimalDigits ts ++ sepByte :: decimalDigits nonce)))

theorem upperByte_ne_sep {b : Nat} (h : b ≠ sepByte) : upperByte b ≠ sepByte := by
  unfold upperByte sepByte at *
  split_ifs with hb
  · omega
  · exact h

theorem sep_not_mem_upperBytes {m : List Nat} (h : sepByte ∉ m) :
    sepByte ∉ upperBytes m := by
  intro hmem
  rcases List.mem_map.mp hmem with ⟨b, hb, hEq⟩
  exact upperByte_ne_sep (fun hbs => h (hbs ▸ hb)) hEq

theorem hexDigitByte_ne_sep (d : Nat) : hexDigitByte d ≠ sepByte := by
  unfold hexDigitByte sepByte
  split_ifs <;> omega

theorem sep_not_mem_hexBytes (b : List Nat) : sepByte ∉ hexBytes b := by
  induction b with
  | nil => simp [hexBytes]
  | cons x xs ih =>
    simp only [hexBytes, List.mem_cons]
    rintro (h | h | h)
    · exact hexDigitByte_ne_sep _ h.symm
    · exact hexDigitByte_ne_sep _ h.symm
    · exact ih h

theorem decimalDigitsGo_bounds (fuel : Nat) :
    ∀ n, ∀ x ∈ decimalDigitsGo fuel n, 48 ≤ x ∧ x ≤ 57 := by
  induction fuel with
  | zero => intro n x hx; simp [decimalDigitsGo] at hx
  | succ fuel ih =>
    intro n x hx
    rw [decimalDigitsGo] at hx
    split_ifs at hx with h
    · rcases List.mem_singleton.mp hx with rfl; omega
    · rcases List.mem_append.mp hx with hx | hx
      · exact ih (n / 10) x hx
      · rcases List.mem_singleton.mp hx with rfl
        have : n % 10 < 10 := Nat.mod_lt _ (by omega)
        omega

theorem sep_not_mem_decimalDigits (n : Nat) : sepByte ∉ decimalDigits n := by
  intro h
  have := decimalDigitsGo_bounds (n + 1) n sepByte h
  simp [sepByte] at this

theorem hexDigitByte_inj {d₁ d₂ : Nat} (h₁ : d₁ < 16) (h₂ : d₂ < 16)
    (h : hexDigitByte d₁ = hexDigitByte d₂) : d₁ = d₂ := by
  unfold hexDigitByte at h
  split_ifs at h <;> omega

theorem hexBytes_inj : ∀ (b₁ b₂ : List Nat), (∀ x ∈ b₁, x < 256) →
    (∀ x ∈ b₂, x < 256) → hexBytes b₁ = hexBytes b₂ → b₁ = b₂
  | [], [], _, _, _ => rfl
  | [], _ :: _, _, _, h => by simp [hexBytes] at h
  | _ :: _, [], _, _, h => by simp [hexBytes] at h
  | x :: xs, y :: ys, h₁, h₂, h => by
    simp only [hexBytes, List.cons.injEq] at h
    obtain ⟨hq, hr, hrest⟩ := h
    have hx : x < 256 := h₁ x (List.mem_cons_self x xs)
    have hy : y < 256 := h₂ y (List.mem_cons_self y ys)
    have hq' : x / 16 = y / 16 := hexDigitByte_inj (by omega) (by omega) hq
    have hr' : x % 16 = y % 16 :=
      hexDigitByte_inj (Nat.mod_lt _ (by omega)) (Nat.mod_lt _ (by omega)) hr
    have hxy : x = y := by omega
    have htail : xs = ys := hexBytes_inj xs ys
      (fun z hz => h₁ z (List.mem_cons_of_mem _ hz))
      (fun z hz => h₂ z (List.mem_cons_of_mem _ hz)) hrest
    rw [hxy, htail]

theorem append_sep_inj_left (s : Nat) (xs : List Nat) :
    ∀ (xs' ys ys' : List Nat), s ∉ xs → s ∉ xs' →
      xs ++ s :: ys = xs' ++ s :: ys' → xs = xs' ∧ ys = ys' := by
  induction xs with
  | nil =>
    intro xs' ys ys' _ h2 h
    cases xs' with
    | nil => simpa using h
    | cons a t =>
      simp only [List.nil_append, List.cons_append, List.cons.injEq] at h
      cases h.1
      exact absurd (List.mem_cons_self _ _) h2
  | cons x xs ih =>
    intro xs' ys ys' h1 h2 h
    cases xs' with
    | nil =>
      simp only [List.cons_append, List.nil_append, List.cons.injEq] at h
      cases h.1
      exact absurd (List.mem_cons_self _ _) h1
    | cons a t =>
      simp only [List.cons_append, List.cons.injEq] at h
      obtain ⟨hxa, h'⟩ := h
      obtain ⟨hxs, hys⟩ := ih t ys ys'
        (fun hm => h1 (List.mem_cons_of_mem _ hm))
        (fun hm => h2 (List.mem_cons_of_mem _ hm)) h'
      exact ⟨by rw [hxa, hxs], hys⟩

theorem append_sep_inj_right (s : Nat) (xs xs' ys ys' : List Nat)
    (h1 : s ∉ ys) (h2 : s ∉ ys') (h : xs ++ s :: ys = xs' ++ s :: ys') :
    xs = xs' ∧ ys = ys' := by
  have hrev : ys.reverse ++ s :: xs.reverse = ys'.reverse ++ s :: xs'.reverse := by
    have h' := congrArg List.reverse h
    simpa [List.reverse_append] using h'
  obtain ⟨hy, hx⟩ := append_sep_inj_left s ys.reverse ys'.reverse xs.reverse xs'.reverse
    (by simpa using h1) (by simpa using h2) hrev
  exact ⟨List.reverse_injective hx, List.reverse_injective hy⟩

/-- C2 counterexample: two distinct request descriptors — the methods
`"get"` and `"GET"` differ as byte strings, path and body equal — produce
the same canonical signing payload, because the signer uppercases the
method before concatenation. This refutes the claim as stated, which
requires distinct payloads for every pair of descriptors differing in
method bytes. -/
theorem canonical_payload_collision :
    (strBytes "get", strBytes "/v1/x", ([] : List Nat)) ≠
      (strBytes "GET", strBytes "/v1/x", ([] : List Nat)) ∧
    canonicalPayload (strBytes "get") (strBytes "/v1/x") [] 1 2 =
      canonicalPayload (strBytes "GET") (strBytes "/v1/x") [] 1 2 := by
  constructor
  · decide
  · decide

/-- C2 (amended): for every pair of request descriptors whose methods do
not contain the separator byte and whose bodies are byte strings, if the
descriptors differ in uppercased method, path, or body bytes, then the
canonical signing payloads (same timestamp and nonce) are distinct byte
sequences. -/
theorem canonical_payload_inj (m₁ p₁ b₁ m₂ p₂ b₂ : List Nat) (ts nonce : Nat)
    (hm₁ : sepByte ∉ m₁) (hm₂ : sepByte ∉ m₂)
    (hb₁ : ∀ x ∈ b₁, x < 256) (hb₂ : ∀ x ∈ b₂, x < 256)
    (hne : (upperBytes m₁, p₁, b₁) ≠ (upperBytes m₂, p₂, b₂)) :
    canonicalPayload m₁ p₁ b₁ ts nonce ≠ canonicalPayload m₂ p₂ b₂ ts nonce := by
  intro h
  unfold canonicalPayload at h
  obtain ⟨hM, hrest⟩ := append_sep_inj_left sepByte (upperBytes m₁) (upperBytes m₂) _ _
    (sep_not_mem_upperBytes hm₁) (sep_not_mem_upperBytes hm₂) h
  have hrest2 :
      (p₁ ++ sepByte :: (hexBytes b₁ ++ sepByte :: decimalDigits ts)) ++
          sepByte :: decimalDigits nonce =
        (p₂ ++ sepByte :: (hexBytes b₂ ++ sepByte :: decimalDigits ts)) ++
          sepByte :: decimalDigits nonce := by
    simpa [List.append_assoc] using hrest
  obtain ⟨hA, _⟩ := append_sep_inj_right sepByte _ _ _ _
    (sep_not_mem_decimalDigits nonce) (sep_not_mem_decimalDigits nonce) hrest2
  have hA2 : (p₁ ++ sepByte :: hexBytes b₁) ++ sepByte :: decimalDigits ts =
      (p₂ ++ sepByte :: hexBytes b₂) ++ sepByte :: decimalDigits ts := by
    simpa [List.append_assoc] using hA
  obtain ⟨hB, _⟩ := append_sep_inj_right sepByte _ _ _ _
    (sep_not_mem_decimalDigits ts) (sep_not_mem_decimalDigits ts) hA2
  obtain ⟨hp, hhex⟩ := append_sep_inj_right sepByte _ _ _ _
    (sep_not_mem_hexBytes b₁) (sep_not_mem_hexBytes b₂) hB
  exact hne (by rw [hM, hp, hexBytes_inj b₁ b₂ hb₁ hb₂ hhex])

/-- C2 witness: the amended theorem applied at two concrete descriptors
differing in method, path, and body, all hypotheses discharged by
evaluation. -/
theorem canonical_payload_inj_witness :
    canonicalPayload (strBytes "GET") (strBytes "/v2/evm/accounts") [] 7 8 ≠
      canonicalPayload (strBytes "POST") (strBytes "/v2/evm/accounts/0xabc/sign")
        (strBytes "{}") 7 8 :=
  canonical_payload_inj _ _ _ _ _ _ 7 8 (by decide) (by decide) (by decide) (by decide)
    (by decide)

/-- Modelled from the spec (section 7): the signing error taxonomy of the
absent auth module. -/
inductive SigningError where
  | invalidKey : SigningError
  | invalidInput : SigningError
deriving DecidableEq

/-- Modelled from the spec (sections 4.1 and 7): configuration errors at
credential load time; compare CdpError::Config in src/rust/src/error.rs. -/
inductive ConfigError where
  | missingField (field : String) : ConfigError
deriving DecidableEq

/-- Modelled from the spec (section 7): interceptor-level aggregation of
signing failures; compare CdpError::Auth in src/rust/src/error.rs. -/
inductive AuthError where
  | signing (e : SigningError) : AuthError
deriving DecidableEq

/-- Modelled from the spec (section 3): the API-key credential; `keyValid`
records whether the key material is accepted by the signature algorithm
(the section 4.2 failure mode). -/
structure ApiKeyCredential where
  keyId : List Nat
  keyMaterial : List Nat
  keyValid : Bool
deriving DecidableEq

/-- Modelled from the spec (section 3): the optional wallet credential. -/
structure WalletCredential where
  keyMaterial : List Nat
  keyValid : Bool
deriving DecidableEq

/-- Modelled from the spec (sections 2 and 3): the credential store. -/
structure CredentialStore where
  apiKey : ApiKeyCredential
  wallet : Option WalletCredential
deriving DecidableEq

/-- Modelled from the spec (sections 4.1 and 6): the configuration input
of the credential store, every field possibly absent. -/
structure Config where
  apiKeyId : Option (List Nat)
  apiKeySecret : Option (List Nat)
  walletSecret : Option (List Nat)
deriving DecidableEq

/-- Modelled from the spec: whether key material parses for its curve,
modelled as nonemptiness of the material. -/
def parsesKey (k : List Nat) : Bool := decide (k ≠ [])

/-- Modelled from the spec (section 4.1): credential-store loading. Fails
with `ConfigError.missingField` exactly when the API-key identifier or the
API-key key material is absent; the wallet key is optional and its absence
only leaves the wallet slot empty. -/
def loadCredentialStore (cfg : Config) : Except ConfigError CredentialStore :=
  match cfg.apiKeyId with
  | none => .error (.missingField "api_key_id")
  | some kid =>
    match cfg.apiKeySecret with
    | none => .error (.missingField "api_key_secret")
    | some sec =>
        .ok { apiKey := { keyId := kid, keyMaterial := sec, keyValid := parsesKey sec },
              wallet := cfg.walletSecret.map
                (fun wk => { keyMaterial := wk, keyValid := parsesKey wk }) }

/-- C5: credential-store loading fails with `ConfigError.missingField`
exactly when the API-key identifier or the API-key key material is absent
from the configuration; whenever both are present loading succeeds, so the
absence of the optional wallet key is never a load error. -/
theorem load_missing_field_spec (cfg : Config) :
    ((∃ f, loadCredentialStore cfg = .error (.missingField f)) ↔
      (cfg.apiKeyId = none ∨ cfg.apiKeySecret = none)) ∧
    (∀ kid sec, cfg.apiKeyId = some kid → cfg.apiKeySecret = some sec →
      ∃ cs, loadCredentialStore cfg = .ok cs) := by
  rcases hk : cfg.apiKeyId with _ | kid <;> rcases hs : cfg.apiKeySecret with _ | sec <;>
    simp [loadCredentialStore, hk, hs]

/-- C5 witness: the theorem applied at two concrete configurations — one
missing the API-key identifier, one complete but with no wallet key. -/
theorem load_missing_field_spec_witness :
    (∃ f, loadCredentialStore ⟨none, some (strBytes "pem"), some (strBytes "wk")⟩ =
      .error (.missingField f)) ∧
    (∃ cs, loadCredentialStore ⟨some (strBytes "key-123"), some (strBytes "pem"), none⟩ =
      .ok cs) :=
  ⟨(load_missing_field_spec _).1.mpr (Or.inl rfl),
   (load_missing_field_spec _).2 _ _ rfl rfl⟩

/-- Modelled from the spec (sections 3 and 4.2): a cached bearer token. -/
structure BearerToken where
  value : List Nat
  expiry : Nat
deriving DecidableEq

/-- Modelled from the spec (section 4.2): token lifetime, 120 seconds. -/
def tokenWindow : Nat := 120

/-- Modelled from the spec (section 4.2): the safety margin of the cache
reuse test `now < expiry - safety_margin`; its exact value is a design
choice the spec leaves open. -/
def safetyMargin : Nat := 5

theorem tokenWindow_pos : 0 < tokenWindow := by decide

/-- Dot byte joining the three compact-token segments. -/
def dotByte : Nat := 46

/-- Modelled from the spec (section 4.2): the encoded bearer token — three
dot-joined segments (header, claims, signature); the claims embed issuer
and subject (the API-key id), audience (the host), not-before, expiry and
the nonce; the signature is modelled as key material followed by claims. -/
def bearerEncode (keyId keyMaterial host : List Nat) (now nonce : Nat) : List Nat :=
  let claims := keyId ++ sepByte :: (host ++ sepByte ::
    (decimalDigits now ++ sepByte :: (decimalDigits (now + tokenWindow) ++ sepByte ::
      decimalDigits nonce)))
  strBytes "hdr" ++ dotByte :: (claims ++ dotByte :: (keyMaterial ++ claims))

/-- Modelled from the spec (section 4.2): synthesizing a bearer token;
fails with `SigningError.invalidKey` when the key material is rejected by
the signature algorithm, and that failure repeats identically until the
credential changes. -/
def signBearer (key : ApiKeyCredential) (host : List Nat) (now nonce : Nat) :
    Except SigningError BearerToken :=
  if key.keyValid then
    .ok { value := bearerEncode key.keyId key.keyMaterial host now nonce,
          expiry := now + tokenWindow }
  else .error .invalidKey

/-- The shared token cache: the host the last token was issued for, and
the token (spec section 5: one cache shared by all requests). -/
abbrev TokenCache := Option (List Nat × BearerToken)

/-- Modelled from the spec (section 4.2): per-request token resolution —
the last issued token is reused for the same host while
`now < expiry - safety_margin`; otherwise a new token is synthesized
synchronously before the request proceeds. -/
def tokenFor (key : ApiKeyCredential) (cache : TokenCache) (host : List Nat)
    (now nonce : Nat) : Except SigningError (BearerToken × TokenCache) :=
  match cache with
  | some (h, t) =>
      if h = host ∧ now < t.expiry - safetyMargin then .ok (t, some (h, t))
      else
        match signBearer key host now nonce with
        | .ok t2 => .ok (t2, some (host, t2))
        | .error e => .error e
  | none =>
      match signBearer key host now nonce with
      | .ok t2 => .ok (t2, some (host, t2))
      | .error e => .error e

theorem signBearer_expiry {key : ApiKeyCredential} {host : List Nat} {now nonce : Nat}
    {t2 : BearerToken} (h : signBearer key host now nonce = Except.ok t2) :
    t2.expiry = now + tokenWindow := by
  unfold signBearer at h
  split_ifs at h
  simp only [Except.ok.injEq] at h
  rw [← h]

/-- C3: whenever `tokenFor` hands a token to a request, that token's
expiry is strictly in the future at the moment of use; while
`now < expiry - safety_margin` the cached token for the same host is
reused unchanged; an expired cache entry (or an empty cache) leads to a
synchronously synthesized replacement whose expiry is `now + tokenWindow`,
before the request proceeds. -/
theorem token_for_spec (key : ApiKeyCredential) (cache : TokenCache) (host : List Nat)
    (now nonce : Nat) (t : BearerToken) (c2 : TokenCache)
    (h : tokenFor key cache host now nonce = .ok (t, c2)) :
    now < t.expiry ∧
    (∀ th, cache = some (host, th) → now < th.expiry - safetyMargin →
      t = th ∧ c2 = cache) ∧
    (∀ th, cache = some (host, th) → ¬ now < th.expiry - safetyMargin →
      t.expiry = now + tokenWindow) ∧
    (cache = none → t.expiry = now + tokenWindow) := by
  have hwin := tokenWindow_pos
  cases cache with
  | none =>
    unfold tokenFor at h
    cases hs : signBearer key host now nonce with
    | error e => rw [hs] at h; simp at h
    | ok t2 =>
      rw [hs] at h
      simp only [Except.ok.injEq, Prod.mk.injEq] at h
      obtain ⟨rfl, rfl⟩ := h
      have he := signBearer_expiry hs
      refine ⟨by omega, ?_, ?_, fun _ => he⟩
      · intro th hth; cases hth
      · intro th hth; cases hth
  | some pair =>
    obtain ⟨hst, th0⟩ := pair
    simp only [tokenFor] at h
    by_cases hc : hst = host ∧ now < th0.expiry - safetyMargin
    · rw [if_pos hc] at h
      simp only [Except.ok.injEq, Prod.mk.injEq] at h
      obtain ⟨rfl, rfl⟩ := h
      refine ⟨by omega, ?_, ?_, ?_⟩
      · intro th hth _
        simp only [Option.some.injEq, Prod.mk.injEq] at hth
        exact ⟨hth.2, rfl⟩
      · intro th hth hexp
        simp only [Option.some.injEq, Prod.mk.injEq] at hth
        exact absurd (hth.2 ▸ hc.2) hexp
      · intro hnone; cases hnone
    · rw [if_neg hc] at h
      cases hs : signBearer key host now nonce with
      | error e => rw [hs] at h; simp at h
      | ok t2 =>
        rw [hs] at h
        simp only [Except.ok.injEq, Prod.mk.injEq] at h
        obtain ⟨rfl, rfl⟩ := h
        have he := signBearer_expiry hs
        refine ⟨by omega, ?_, ?_, ?_⟩
        · intro th hth hfresh
          simp only [Option.some.injEq, Prod.mk.injEq] at hth
          exact absurd ⟨hth.1, hth.2 ▸ hfresh⟩ hc
        · intro th hth _; exact he
        · intro hnone; cases hnone

/-- A concrete valid API-key credential for witnesses. -/
def key0 : ApiKeyCredential := ⟨strBytes "key-123", strBytes "pem", true⟩

/-- A concrete host for witnesses. -/
def host0 : List Nat := strBytes "api.cdp.coinbase.com"

/-- The token `tokenFor` synthesizes for `key0` and `host0` at time 1000. -/
def tok0 : BearerToken :=
  ⟨bearerEncode key0.keyId key0.keyMaterial host0 1000 1, 1000 + tokenWindow⟩

/-- C3 witness: the theorem applied to a concrete cache miss at time 1000;
the resolution hypothesis is discharged by evaluation. -/
theorem token_for_spec_witness : 1000 < tok0.expiry ∧ tok0.expiry = 1000 + tokenWindow :=
  have h := token_for_spec key0 none host0 1000 1 tok0 (some (host0, tok0)) rfl
  ⟨h.1, h.2.2.2 rfl⟩

/-! ## The request interceptor (spec section 4.4) -/

/-- A header set: name-value pairs of byte strings, in order. -/
abbrev Headers := List (List Nat × List Nat)

/-- Bytes of the `Authorization` header name. -/
def authorizationName : List Nat := strBytes "Authorization"

/-- Bytes of the wallet-auth header name. -/
def xWalletAuthName : List Nat := strBytes "X-Wallet-Auth"

/-- The first value bound to a header name. -/
def getHeader (hs : Headers) (name : List Nat) : Option (List Nat) :=
  (hs.find? (fun p => decide (p.1 = name))).map (fun p => p.2)

/-- Replace every binding of a header name by the single new value. -/
def setHeader (hs : Headers) (name value : List Nat) : Headers :=
  hs.filter (fun p => !decide (p.1 = name)) ++ [(name, value)]

theorem getHeader_setHeader_same (hs : Headers) (n v : List Nat) :
    getHeader (setHeader hs n v) n = some v := by
  unfold getHeader setHeader
  rw [List.find?_append]
  have h1 : (hs.filter (fun p => !decide (p.1 = n))).find? (fun p => decide (p.1 = n)) =
      none := by
    rw [List.find?_eq_none]
    intro p hp
    have := List.of_mem_filter hp
    simp only [Bool.not_eq_true', decide_eq_false_iff_not] at this
    simpa using this
  rw [h1]
  simp [List.find?_cons_of_pos]

theorem find?_filter_of_imp (p q : List Nat × List Nat → Bool) (l : Headers)
    (h : ∀ x, p x = true → q x = true) : (l.filter q).find? p = l.find? p := by
  induction l with
  | nil => rfl
  | cons a l ih =>
    by_cases hq : q a = true
    · rw [List.filter_cons_of_pos hq]
      by_cases hp : p a = true
      · rw [List.find?_cons_of_pos _ hp, List.find?_cons_of_pos _ hp]
      · have hp' : p a = false := by simpa using hp
        rw [List.find?_cons_of_neg _ (by simp [hp']), List.find?_cons_of_neg _ (by simp [hp']),
          ih]
    · have hq' : q a = false := by simpa using hq
      rw [List.filter_cons_of_neg (by simp [hq']), ih]
      have hp' : p a = false := by
        cases hpa : p a
        · rfl
        · exact absurd (h a hpa) (by simp [hq'])
      rw [List.find?_cons_of_neg _ (by simp [hp'])]

theorem getHeader_setHeader_other (hs : Headers) (n m v : List Nat) (hnm : m ≠ n) :
    getHeader (setHeader hs n v) m = getHeader hs m := by
  unfold getHeader setHeader
  rw [List.find?_append]
  rw [find?_filter_of_imp (fun p => decide (p.1 = m)) (fun p => !decide (p.1 = n)) hs ?_]
  · have h2 : ([((n : List Nat), v)].find? (fun p => decide (p.1 = m))) = none := by
      rw [List.find?_eq_none]
      intro p hp
      rcases List.mem_singleton.mp hp with rfl
      simpa using fun hEq => hnm hEq.symm
    rw [h2]
    cases hs.find? (fun p => decide (p.1 = m)) <;> rfl
  · intro x hx
    simp only [decide_eq_true_eq] at hx
    simp only [Bool.not_eq_true', decide_eq_false_iff_not]
    rw [hx]
    exact hnm

theorem setHeader_mem_value (hs : Headers) (n v : List Nat) (p : List Nat × List Nat)
    (hp : p ∈ setHeader hs n v) (hn : p.1 = n) : p.2 = v := by
  unfold setHeader at hp
  rcases List.mem_append.mp hp with h | h
  · have := List.of_mem_filter h
    simp [hn] at this
  · rcases List.mem_singleton.mp h with rfl
    rfl

/-- Modelled from the spec (sections 3 and 6): the outgoing request — an
already-resolved method, path and host, already-serialized body bytes, and
the header set the interceptor decorates. -/
structure Request where
  method : List Nat
  path : List Nat
  host : List Nat
  body : List Nat
  headers : Headers
deriving DecidableEq

/-- Modelled from the spec (section 4.3): the wallet-auth header value — a
compact signed token embedding the canonical payload as claims plus the
signature, which is modelled as key material followed by the payload. -/
def walletAuthValue (w : WalletCredential) (req : Request) (ts nonce : Nat) : List Nat :=
  strBytes "hdr" ++ dotByte ::
    (canonicalPayload req.method req.path req.body ts nonce ++ dotByte ::
      (w.keyMaterial ++ canonicalPayload req.method req.path req.body ts nonce))

/-- Modelled from the spec (section 4.3): wallet signing of one request;
fails with `SigningError.invalidKey` when the wallet key is rejected by
its signature algorithm. -/
def walletSign (w : WalletCredential) (req : Request) (ts nonce : Nat) :
    Except SigningError (List Nat) :=
  if w.keyValid then .ok (walletAuthValue w req ts nonce) else .error .invalidKey

/-- Modelled from the spec (section 4.4): the request interceptor. Step 1
resolves a bearer token for the request host and sets the Authorization
header; step 2 computes and sets the wallet-auth header when a wallet
credential is configured — overwriting any caller-supplied value — and
leaves the header set untouched otherwise; a failure of either signer
aborts with an AuthError before anything is forwarded. `now` is the clock
reading, `nonceB` and `nonceW` the fresh nonces of the two signers. -/
def intercept (store : CredentialStore) (cache : TokenCache) (req : Request)
    (now nonceB nonceW : Nat) : Except AuthError (Request × TokenCache) :=
  match tokenFor store.apiKey cache req.host now nonceB with
  | .error e => .error (.signing e)
  | .ok (t, c2) =>
    let req1 := { req with
      headers := setHeader req.headers authorizationName (strBytes "Bearer " ++ t.value) }
    match store.wallet with
    | none => .ok (req1, c2)
    | some w =>
      match walletSign w req now nonceW with
      | .error e => .error (.signing e)
      | .ok v => .ok ({ req1 with headers := setHeader req1.headers xWalletAuthName v }, c2)

theorem tokenFor_ok_of_valid (key : ApiKeyCredential) (cache : TokenCache)
    (host : List Nat) (now nonce : Nat) (hk : key.keyValid = true) :
    ∃ t c2, tokenFor key cache host now nonce = .ok (t, c2) ∧ now < t.expiry := by
  have hwin := tokenWindow_pos
  cases cache with
  | none =>
    refine ⟨⟨bearerEncode key.keyId key.keyMaterial host now nonce, now + tokenWindow⟩,
      some (host, ⟨bearerEncode key.keyId key.keyMaterial host now nonce,
        now + tokenWindow⟩), ?_, by show now < now + tokenWindow; omega⟩
    simp only [tokenFor, signBearer, hk, if_true]
  | some pair =>
    obtain ⟨hst, th0⟩ := pair
    by_cases hc : hst = host ∧ now < th0.expiry - safetyMargin
    · refine ⟨th0, some (hst, th0), ?_, by omega⟩
      simp only [tokenFor, if_pos hc]
    · refine ⟨⟨bearerEncode key.keyId key.keyMaterial host now nonce, now + tokenWindow⟩,
        some (host, ⟨bearerEncode key.keyId key.keyMaterial host now nonce,
          now + tokenWindow⟩), ?_, by show now < now + tokenWindow; omega⟩
      simp only [tokenFor, if_neg hc, signBearer, hk, if_true]

theorem xWalletAuthName_ne_authorizationName : xWalletAuthName ≠ authorizationName := by
  decide

/-- C1: with no wallet credential configured, `intercept` never sets the
wallet-auth header — on every request that passes interception, the
wallet-auth header binding is exactly the one the request arrived with —
and the absence of the wallet credential is not an error: interception
succeeds whenever the API key is valid. -/
theorem intercept_no_wallet (store : CredentialStore) (cache : TokenCache) (req : Request)
    (now nonceB nonceW : Nat) (hw : store.wallet = none) :
    (∀ out c2, intercept store cache req now nonceB nonceW = .ok (out, c2) →
      getHeader out.headers xWalletAuthName = getHeader req.headers xWalletAuthName) ∧
    (store.apiKey.keyValid = true →
      ∃ out c2, intercept store cache req now nonceB nonceW = .ok (out, c2)) := by
  constructor
  · intro out c2 h
    unfold intercept at h
    cases htf : tokenFor store.apiKey cache req.host now nonceB with
    | error e => rw [htf] at h; simp at h
    | ok tc =>
      obtain ⟨t, c3⟩ := tc
      rw [htf, hw] at h
      simp only [Except.ok.injEq, Prod.mk.injEq] at h
      obtain ⟨rfl, rfl⟩ := h
      exact getHeader_setHeader_other _ _ _ _ xWalletAuthName_ne_authorizationName
  · intro hk
    obtain ⟨t, c3, htf, _⟩ := tokenFor_ok_of_valid store.apiKey cache req.host now nonceB hk
    refine ⟨{ req with headers := setHeader req.headers authorizationName (strBytes "Bearer " ++ t.value) }, c3, ?_⟩
    unfold intercept
    rw [htf, hw]

/-- C1 witness: the theorem applied at a concrete store with no wallet
credential and a concrete request carrying no wallet-auth header. -/
theorem intercept_no_wallet_witness :
    ∃ out c2, intercept ⟨key0, none⟩ none ⟨strBytes "POST", strBytes "/v2/evm/accounts",
      host0, [], []⟩ 1000 1 2 = .ok (out, c2) :=
  (intercept_no_wallet ⟨key0, none⟩ none _ 1000 1 2 rfl).2 rfl

theorem walletAuthValue_ne_nil (w : WalletCredential) (req : Request) (ts nonce : Nat) :
    walletAuthValue w req ts nonce ≠ [] := by
  unfold walletAuthValue
  intro hnil
  rcases List.append_eq_nil.mp hnil with ⟨_, h2⟩
  exact List.cons_ne_nil _ _ h2

/-- C4: a failure of either signer aborts interception before anything is
forwarded, surfacing the failure as an AuthError — the caller sees a
failed send; and an intercepted request is never released unauthenticated
or partially signed: on success the Authorization header is present, and
the wallet-auth header is present whenever a wallet credential is
configured. -/
theorem intercept_abort_spec (store : CredentialStore) (cache : TokenCache) (req : Request)
    (now nonceB nonceW : Nat) :
    (∀ e, tokenFor store.apiKey cache req.host now nonceB = .error e →
      intercept store cache req now nonceB nonceW = .error (.signing e)) ∧
    (∀ w e t c2, store.wallet = some w →
      tokenFor store.apiKey cache req.host now nonceB = .ok (t, c2) →
      walletSign w req now nonceW = .error e →
      intercept store cache req now nonceB nonceW = .error (.signing e)) ∧
    (∀ out c2, intercept store cache req now nonceB nonceW = .ok (out, c2) →
      (∃ v, getHeader out.headers authorizationName = some v) ∧
      (∀ w, store.wallet = some w →
        ∃ v, getHeader out.headers xWalletAuthName = some v)) := by
  refine ⟨?_, ?_, ?_⟩
  · intro e he
    simp only [intercept, he]
  · intro w e t c2 hw htf hws
    simp only [intercept, htf, hw, hws]
  · intro out c2 h
    cases htf : tokenFor store.apiKey cache req.host now nonceB with
    | error e => simp [intercept, htf] at h
    | ok tc =>
      obtain ⟨t, c3⟩ := tc
      cases hw : store.wallet with
      | none =>
        simp only [intercept, htf, hw, Except.ok.injEq, Prod.mk.injEq] at h
        obtain ⟨rfl, rfl⟩ := h
        refine ⟨⟨_, getHeader_setHeader_same _ _ _⟩, ?_⟩
        intro w hws
        exact Option.noConfusion hws
      | some w =>
        cases hws : walletSign w req now nonceW with
        | error e => simp [intercept, htf, hw, hws] at h
        | ok v =>
          simp only [intercept, htf, hw, hws, Except.ok.injEq, Prod.mk.injEq] at h
          obtain ⟨rfl, rfl⟩ := h
          refine ⟨⟨strBytes "Bearer " ++ t.value, ?_⟩, ?_⟩
          · rw [getHeader_setHeader_other _ _ _ _ xWalletAuthName_ne_authorizationName.symm]
            exact getHeader_setHeader_same _ _ _
          · intro w2 _
            exact ⟨v, getHeader_setHeader_same _ _ _⟩

/-- A concrete API-key credential whose key material the signature
algorithm rejects. -/
def badKey : ApiKeyCredential := ⟨strBytes "key-123", strBytes "pem", false⟩

/-- A concrete request for witnesses. -/
def req0 : Request := ⟨strBytes "POST", strBytes "/v2/evm/accounts", host0, [], []⟩

/-- C4 witness: with the rejected key, interception of the concrete
request aborts with the invalid-key AuthError; the failing resolution is
discharged by evaluation. -/
theorem intercept_abort_spec_witness :
    intercept ⟨badKey, none⟩ none req0 1000 1 2 =
      .error (.signing .invalidKey) :=
  (intercept_abort_spec ⟨badKey, none⟩ none req0 1000 1 2).1 .invalidKey rfl

/-- C6: interception changes only the header set — the forwarded request
carries byte-for-byte the body of the incoming request, and method, path
and host are unchanged. -/
theorem intercept_frame (store : CredentialStore) (cache : TokenCache) (req : Request)
    (now nonceB nonceW : Nat) (out : Request) (c2 : TokenCache)
    (h : intercept store cache req now nonceB nonceW = .ok (out, c2)) :
    out.body = req.body ∧ out.method = req.method ∧ out.path = req.path ∧
      out.host = req.host := by
  cases htf : tokenFor store.apiKey cache req.host now nonceB with
  | error e => simp [intercept, htf] at h
  | ok tc =>
    obtain ⟨t, c3⟩ := tc
    cases hw : store.wallet with
    | none =>
      simp only [intercept, htf, hw, Except.ok.injEq, Prod.mk.injEq] at h
      obtain ⟨rfl, rfl⟩ := h
      exact ⟨rfl, rfl, rfl, rfl⟩
    | some w =>
      cases hws : walletSign w req now nonceW with
      | error e => simp [intercept, htf, hw, hws] at h
      | ok v =>
        simp only [intercept, htf, hw, hws, Except.ok.injEq, Prod.mk.injEq] at h
        obtain ⟨rfl, rfl⟩ := h
        exact ⟨rfl, rfl, rfl, rfl⟩

/-- The token synthesized for `req0` at time 1000. -/
def tok1 : BearerToken :=
  ⟨bearerEncode key0.keyId key0.keyMaterial req0.host 1000 1, 1000 + tokenWindow⟩

/-- The decorated request the interceptor produces for `req0` when no
wallet credential is configured. -/
def out0 : Request :=
  { req0 with headers := setHeader req0.headers authorizationName (strBytes "Bearer " ++ tok1.value) }

/-- C6 witness: the frame property at a concrete interception, the
resolution hypothesis discharged by evaluation. -/
theorem intercept_frame_witness :
    out0.body = req0.body ∧ out0.method = req0.method ∧ out0.path = req0.path ∧
      out0.host = req0.host :=
  intercept_frame ⟨key0, none⟩ none req0 1000 1 2 out0 (some (req0.host, tok1)) rfl

/-- C7: when a wallet credential is configured, every intercepted request
leaves with the wallet-auth header bound to the freshly computed
WalletAuthHeader value — the single binding of that name in the outgoing
header set — and that value is nonempty, so a caller-supplied placeholder
(such as the empty string passed at the call sites) never reaches the
transport. -/
theorem intercept_wallet_overwrite (store : CredentialStore) (cache : TokenCache)
    (req : Request) (now nonceB nonceW : Nat) (w : WalletCredential) (out : Request)
    (c2 : TokenCache) (hw : store.wallet = some w)
    (h : intercept store cache req now nonceB nonceW = .ok (out, c2)) :
    getHeader out.headers xWalletAuthName = some (walletAuthValue w req now nonceW) ∧
    (∀ v, (xWalletAuthName, v) ∈ out.headers → v = walletAuthValue w req now nonceW) ∧
    walletAuthValue w req now nonceW ≠ [] := by
  cases htf : tokenFor store.apiKey cache req.host now nonceB with
  | error e => simp [intercept, htf] at h
  | ok tc =>
    obtain ⟨t, c3⟩ := tc
    cases hws : walletSign w req now nonceW with
    | error e => simp [intercept, htf, hw, hws] at h
    | ok v =>
      have hv : v = walletAuthValue w req now nonceW := by
        unfold walletSign at hws
        split_ifs at hws
        simp only [Except.ok.injEq] at hws
        exact hws.symm
      subst hv
      simp only [intercept, htf, hw, hws, Except.ok.injEq, Prod.mk.injEq] at h
      obtain ⟨rfl, rfl⟩ := h
      refine ⟨getHeader_setHeader_same _ _ _, ?_, walletAuthValue_ne_nil w req now nonceW⟩
      intro v2 hv2
      exact setHeader_mem_value _ _ _ _ hv2 rfl

/-- A concrete wallet credential for witnesses. -/
def wallet0 : WalletCredential := ⟨strBytes "wallet-pem", true⟩

/-- A concrete request carrying the empty caller-supplied placeholder for
the wallet-auth header, as the e2e tests and the examples pass it. -/
def reqPh : Request :=
  ⟨strBytes "POST", strBytes "/v2/evm/accounts", host0, [], [(xWalletAuthName, [])]⟩

/-- The token synthesized for `reqPh` at time 1000. -/
def tok2 : BearerToken :=
  ⟨bearerEncode key0.keyId key0.keyMaterial reqPh.host 1000 1, 1000 + tokenWindow⟩

/-- The header set of the decorated request for `reqPh`. -/
def out1Headers : Headers :=
  setHeader (setHeader reqPh.headers authorizationName (strBytes "Bearer " ++ tok2.value))
    xWalletAuthName (walletAuthValue wallet0 reqPh 1000 2)

/-- The decorated request the interceptor produces for `reqPh` with the
wallet credential configured. -/
def out1 : Request := { reqPh with headers := out1Headers }

/-- C7 witness: the theorem at a concrete interception whose incoming
request carried the empty placeholder; both hypotheses discharged by
evaluation. -/
theorem intercept_wallet_overwrite_witness :
    getHeader out1.headers xWalletAuthName =
      some (walletAuthValue wallet0 reqPh 1000 2) :=
  (intercept_wallet_overwrite ⟨key0, some wallet0⟩ none reqPh 1000 1 2 wallet0 out1
    (some (reqPh.host, tok2)) rfl (by rfl)).1

/-- Modelled from the spec (section 5): the shared token cache is guarded
by a mutual-exclusion discipline, so a run of N concurrent requests is an
arbitrary serialization of atomic `tokenFor` operations threading the
shared cache; each operation records the host, the clock reading and the
nonce of one request. -/
def runRequests (key : ApiKeyCredential) :
    TokenCache → List (List Nat × Nat × Nat) → List (Except SigningError BearerToken)
  | _, [] => []
  | cache, (host, now, nonce) :: rest =>
      match tokenFor key cache host now nonce with
      | .ok (t, c2) => .ok t :: runRequests key c2 rest
      | .error e => .error e :: runRequests key cache rest

/-- C8: for every serialization of N concurrent requests sharing one
credential store and one cached bearer token — the spec's mutual-exclusion
discipline makes each cache access atomic, so no request can observe a
half-written token — every request receives a signed bearer token that is
non-expired at that request's moment of use; none proceeds
unauthenticated, however the operations interleave around an expiry
boundary. -/
theorem concurrent_requests_spec (key : ApiKeyCredential) (hk : key.keyValid = true)
    (ops : List (List Nat × Nat × Nat)) (cache : TokenCache) :
    List.Forall₂ (fun op r => ∃ t, r = Except.ok t ∧ op.2.1 < t.expiry)
      ops (runRequests key cache ops) := by
  induction ops generalizing cache with
  | nil => exact List.Forall₂.nil
  | cons op rest ih =>
    obtain ⟨host, now, nonce⟩ := op
    obtain ⟨t, c2, htf, hlt⟩ := tokenFor_ok_of_valid key cache host now nonce hk
    have hrun : runRequests key cache ((host, now, nonce) :: rest) =
        Except.ok t :: runRequests key c2 rest := by
      simp only [runRequests, htf]
    rw [hrun]
    exact List.Forall₂.cons ⟨t, rfl, hlt⟩ (ih c2)

/-- C8 witness: three serialized requests around the expiry boundary of a
token issued at time 1000 (reuse at 1100, regeneration at 1200), the
key-validity hypothesis discharged by evaluation. -/
theorem concurrent_requests_spec_witness :
    List.Forall₂
      (fun (op : List Nat × Nat × Nat) r => ∃ t, r = Except.ok t ∧ op.2.1 < t.expiry)
      [(host0, 1000, 1), (host0, 1100, 2), (host0, 1200, 3)]
      (runRequests key0 none [(host0, 1000, 1), (host0, 1100, 2), (host0, 1200, 3)]) :=
  concurrent_requests_spec key0 rfl
    [(host0, 1000, 1), (host0, 1100, 2), (host0, 1200, 3)] none

end CdpSdk
